import Mathlib

/-!
Shallow embedding of the search/ranking core of the DevLearning Hub
application (`src/App.tsx`) together with the keyboard-movement demo, and
proofs of the specified properties.

Strings are modelled as `List Char` (JavaScript strings are finite
sequences of code units; all operations used by the code are per-code-point).
`String.prototype.toLowerCase` is modelled by `Char.toLower` on each
character.
-/

namespace DevHub

/-- `String.prototype.toLowerCase`, per character. -/
def lowerStr (s : List Char) : List Char := s.map Char.toLower

/-- The whitespace test used by `String.prototype.trim` and by the `\s`
regular-expression character class. -/
def isWs (c : Char) : Bool := c.isWhitespace

/-- `String.prototype.trim`: remove leading and trailing whitespace. -/
def trim (s : List Char) : List Char :=
  (s.dropWhile isWs).rdropWhile isWs

/-- The two-pointer scan inside `isFuzzyMatch` (src/App.tsx:342-345):
`while (i < t.length && j < q.length) { if (t[i] === q[j]) j++; i++; }`,
with the result `j === q.length`.  The first argument is the remaining
text, the second the remaining (unconsumed) query. -/
def fuzzyLoop : List Char → List Char → Bool
  | _, [] => true
  | [], _ :: _ => false
  | c :: t, d :: q => if c = d then fuzzyLoop t q else fuzzyLoop t (d :: q)

/-- `isFuzzyMatch` (src/App.tsx:338-347): lowercase both strings, then run
the two-pointer scan. -/
def isFuzzyMatch (text query : List Char) : Bool :=
  fuzzyLoop (lowerStr text) (lowerStr query)

/-- Index of the first occurrence of `q` as a contiguous substring of the
second argument, scanning left to right; `none` when there is none.  This is
the search primitive behind both `String.prototype.includes` and the global
literal-pattern scan of the `Highlight` component. -/
def findOccAux (q : List Char) : List Char → Option Nat
  | [] => if q.isPrefixOf ([] : List Char) then some 0 else none
  | c :: t =>
    if q.isPrefixOf (c :: t) then some 0
    else (findOccAux q t).map (· + 1)

/-- `t.includes(w)` for JavaScript strings: `w` occurs contiguously in `t`. -/
def includesStr (t w : List Char) : Bool := (findOccAux w t).isSome

/-! ## Correctness of the fuzzy two-pointer scan (greedy subsequence test) -/

theorem fuzzyLoop_nil_right (t : List Char) : fuzzyLoop t [] = true := by
  cases t <;> rfl

theorem fuzzyLoop_of_sublist :
    ∀ {t q : List Char}, q.Sublist t → fuzzyLoop t q = true := by
  intro t
  induction t with
  | nil =>
    intro q h
    rw [List.sublist_nil.mp h]
    rfl
  | cons c t ih =>
    intro q h
    cases q with
    | nil => exact fuzzyLoop_nil_right _
    | cons d q' =>
      by_cases hcd : c = d
      · subst hcd
        rw [List.cons_sublist_cons] at h
        simpa [fuzzyLoop] using ih h
      · have h' : (d :: q').Sublist t := by
          cases h with
          | cons _ h => exact h
          | cons₂ _ h => exact absurd rfl hcd
        simpa [fuzzyLoop, hcd] using ih h'

theorem sublist_of_fuzzyLoop :
    ∀ {t q : List Char}, fuzzyLoop t q = true → q.Sublist t := by
  intro t
  induction t with
  | nil =>
    intro q h
    cases q with
    | nil => exact List.Sublist.refl _
    | cons d q' => simp [fuzzyLoop] at h
  | cons c t ih =>
    intro q h
    cases q with
    | nil => exact List.nil_sublist _
    | cons d q' =>
      by_cases hcd : c = d
      · subst hcd
        simp only [fuzzyLoop, if_pos rfl] at h
        exact List.cons_sublist_cons.mpr (ih h)
      · simp only [fuzzyLoop, if_neg hcd] at h
        exact (ih h).cons c

theorem fuzzyLoop_iff_sublist (t q : List Char) :
    fuzzyLoop t q = true ↔ q.Sublist t :=
  ⟨sublist_of_fuzzyLoop, fuzzyLoop_of_sublist⟩

/-! ## Correctness of the substring scan -/

theorem findOccAux_some :
    ∀ {t q : List Char} {i : Nat}, findOccAux q t = some i →
      q <+: t.drop i ∧ ∀ j < i, ¬ q <+: t.drop j := by
  intro t
  induction t with
  | nil =>
    intro q i h
    by_cases hp : q.isPrefixOf ([] : List Char)
    · simp only [findOccAux, if_pos hp, Option.some.injEq] at h
      subst h
      refine ⟨?_, by omega⟩
      simpa using List.isPrefixOf_iff_prefix.mp hp
    · simp [findOccAux, hp] at h
  | cons c t ih =>
    intro q i h
    by_cases hp : q.isPrefixOf (c :: t)
    · simp only [findOccAux, if_pos hp, Option.some.injEq] at h
      subst h
      refine ⟨?_, by omega⟩
      simpa using List.isPrefixOf_iff_prefix.mp hp
    · simp only [findOccAux, if_neg hp, Option.map_eq_some'] at h
      obtain ⟨i', hi', rfl⟩ := h
      obtain ⟨h1, h2⟩ := ih hi'
      refine ⟨by simpa using h1, ?_⟩
      intro j hj
      cases j with
      | zero =>
        simpa using fun hc => hp (List.isPrefixOf_iff_prefix.mpr hc)
      | succ j' =>
        simpa using h2 j' (by omega)

theorem findOccAux_none :
    ∀ {t q : List Char}, findOccAux q t = none →
      ∀ j, ¬ q <+: t.drop j := by
  intro t
  induction t with
  | nil =>
    intro q h j
    by_cases hp : q.isPrefixOf ([] : List Char)
    · simp [findOccAux, hp] at h
    · simpa using fun hc => hp (List.isPrefixOf_iff_prefix.mpr hc)
  | cons c t ih =>
    intro q h j
    by_cases hp : q.isPrefixOf (c :: t)
    · simp [findOccAux, hp] at h
    · simp only [findOccAux, if_neg hp, Option.map_eq_none'] at h
      cases j with
      | zero =>
        simpa using fun hc => hp (List.isPrefixOf_iff_prefix.mpr hc)
      | succ j' =>
        simpa using ih h j'

theorem includesStr_iff (t w : List Char) :
    includesStr t w = true ↔ ∃ j, w <+: t.drop j := by
  unfold includesStr
  constructor
  · intro h
    obtain ⟨i, hi⟩ := Option.isSome_iff_exists.mp h
    exact ⟨i, (findOccAux_some hi).1⟩
  · intro ⟨j, hj⟩
    cases h : findOccAux w t with
    | none => exact absurd hj (findOccAux_none h j)
    | some i => rfl

theorem includesStr_self (l : List Char) : includesStr l l = true := by
  refine (includesStr_iff l l).mpr ⟨0, ?_⟩
  simp

/-- Contiguous containment implies subsequence containment. -/
theorem sublist_of_includesStr {t w : List Char} (h : includesStr t w = true) :
    w.Sublist t := by
  obtain ⟨j, hj⟩ := (includesStr_iff t w).mp h
  exact hj.sublist.trans (List.drop_sublist j t)

/-! ## `trim` and the whitespace split -/

theorem getLast?_of_suffix {l₁ l₂ : List Char} (h : l₂ <:+ l₁) (hne : l₂ ≠ []) :
    l₁.getLast? = l₂.getLast? := by
  obtain ⟨pre, rfl⟩ := h
  rw [List.getLast?_append]
  cases hl : l₂.getLast? with
  | none => exact absurd (List.getLast?_eq_none_iff.mp hl) hne
  | some c => rfl

theorem head?_dropWhile_eq_some {p : Char → Bool} {l : List Char} {c : Char}
    (h : (l.dropWhile p).head? = some c) : p c = false := by
  have hw := List.head?_dropWhile_not p l
  rw [h] at hw
  exact hw

theorem trim_head?_not_ws {s : List Char} {c : Char}
    (h : (trim s).head? = some c) : isWs c = false := by
  unfold trim at h
  obtain ⟨r, hr⟩ := List.rdropWhile_prefix isWs (s.dropWhile isWs)
  cases ht : (s.dropWhile isWs).rdropWhile isWs with
  | nil => rw [ht] at h; simp at h
  | cons a rest =>
    rw [ht] at h
    simp only [List.head?_cons, Option.some.injEq] at h
    have hd : s.dropWhile isWs = a :: (rest ++ r) := by
      rw [← hr, ht]; rfl
    subst h
    exact head?_dropWhile_eq_some (by rw [hd]; rfl)

theorem trim_getLast?_not_ws {s : List Char} {c : Char}
    (h : (trim s).getLast? = some c) : isWs c = false := by
  unfold trim at h
  have hne : (s.dropWhile isWs).rdropWhile isWs ≠ [] := by
    intro he; rw [he] at h; simp at h
  have := List.rdropWhile_last_not isWs (s.dropWhile isWs) hne
  rw [List.getLast?_eq_getLast _ hne] at h
  simp only [Option.some.injEq] at h
  subst h
  simpa using this

/-- `str.split(/\s+/)` for JavaScript strings: cut the string at every maximal
run of whitespace.  A run at the very start (or end) of the string contributes
an empty part, exactly as the JavaScript regular-expression split does; the
ranker only ever applies this to a trimmed, non-empty string, where every part
is a non-empty word (proved below). -/
def splitWs (s : List Char) : List (List Char) :=
  match h : s.dropWhile (fun c => !isWs c) with
  | [] => [s.takeWhile (fun c => !isWs c)]
  | _ :: rs => s.takeWhile (fun c => !isWs c) :: splitWs (rs.dropWhile isWs)
termination_by s.length
decreasing_by
  have h1 : (s.dropWhile (fun c => !isWs c)).length ≤ s.length :=
    (List.dropWhile_sublist _).length_le
  have h2 : (rs.dropWhile isWs).length ≤ rs.length :=
    (List.dropWhile_sublist _).length_le
  rw [h] at h1
  simp only [List.length_cons] at h1
  omega

theorem splitWs_ne_nil_aux :
    ∀ (n : Nat) (s : List Char), s.length ≤ n → s ≠ [] →
      (∀ c, s.head? = some c → isWs c = false) →
      (∀ c, s.getLast? = some c → isWs c = false) →
      ∀ w ∈ splitWs s, w ≠ [] := by
  intro n
  induction n with
  | zero =>
    intro s hlen hne _ _
    cases s with
    | nil => exact absurd rfl hne
    | cons a s' => simp at hlen
  | succ n ih =>
    intro s hlen hne hhead hlast w hw
    obtain ⟨a, s', rfl⟩ : ∃ a s', s = a :: s' := by
      cases s with
      | nil => exact absurd rfl hne
      | cons a s' => exact ⟨a, s', rfl⟩
    have ha : isWs a = false := hhead a rfl
    have htake : (a :: s').takeWhile (fun c => !isWs c) =
        a :: s'.takeWhile (fun c => !isWs c) := by
      rw [List.takeWhile_cons, ha]
      rfl
    rw [splitWs] at hw
    rcases hd : (a :: s').dropWhile (fun c => !isWs c) with _ | ⟨b, rs⟩
    · rw [hd] at hw
      simp only [List.mem_singleton] at hw
      subst hw
      rw [htake]
      exact List.cons_ne_nil _ _
    · rw [hd] at hw
      simp only [List.mem_cons] at hw
      rcases hw with rfl | hw
      · rw [htake]
        exact List.cons_ne_nil _ _
      · -- the recursive call: set up the invariant for the remaining string
        have hb : isWs b = true := by
          have := head?_dropWhile_eq_some (p := fun c => !isWs c)
            (l := a :: s') (c := b) (by rw [hd]; rfl)
          simpa using this
        have hsuf : (b :: rs) <:+ (a :: s') := hd ▸ List.dropWhile_suffix _
        have hlast' : ∀ c, (b :: rs).getLast? = some c → isWs c = false := by
          intro c hc
          exact hlast c ((getLast?_of_suffix hsuf (List.cons_ne_nil _ _)).symm ▸ hc
            |> fun h => (getLast?_of_suffix hsuf (List.cons_ne_nil _ _)) ▸ hc)
        have hrs_ne : rs ≠ [] := by
          intro hrs
          subst hrs
          have := hlast' b rfl
          rw [hb] at this
          simp at this
        have hrslast : ∀ c, rs.getLast? = some c → isWs c = false := by
          intro c hc
          apply hlast' c
          rw [List.getLast?_cons, hc]
          cases rs with
          | nil => exact absurd rfl hrs_ne
          | cons x xs => simpa [List.getLast?_cons] using hc
        have hne2 : rs.dropWhile isWs ≠ [] := by
          intro hnil
          have hall : ∀ x ∈ rs, isWs x = true := List.dropWhile_eq_nil_iff.mp hnil
          obtain ⟨c, hc⟩ : ∃ c, rs.getLast? = some c := by
            cases hg : rs.getLast? with
            | none => exact absurd (List.getLast?_eq_none_iff.mp hg) hrs_ne
            | some c => exact ⟨c, rfl⟩
          have := hrslast c hc
          rw [hall c (List.mem_of_getLast?_eq_some hc)] at this
          simp at this
        have hhead2 : ∀ c, (rs.dropWhile isWs).head? = some c → isWs c = false :=
          fun c hc => head?_dropWhile_eq_some hc
        have hlast2 : ∀ c, (rs.dropWhile isWs).getLast? = some c → isWs c = false := by
          intro c hc
          exact hrslast c ((getLast?_of_suffix (List.dropWhile_suffix _) hne2) ▸ hc)
        have hlen2 : (rs.dropWhile isWs).length ≤ n := by
          have h1 : ((a :: s').dropWhile (fun c => !isWs c)).length ≤ (a :: s').length :=
            (List.dropWhile_sublist _).length_le
          have h2 : (rs.dropWhile isWs).length ≤ rs.length :=
            (List.dropWhile_sublist _).length_le
          rw [hd] at h1
          simp only [List.length_cons] at h1 hlen
          omega
        exact ih (rs.dropWhile isWs) hlen2 hne2 hhead2 hlast2 w hw

/-- On a trimmed, non-empty string the whitespace split produces only
non-empty words. -/
theorem splitWs_trim_ne_nil {s : List Char} (h : trim s ≠ []) :
    ∀ w ∈ splitWs (trim s), w ≠ [] :=
  splitWs_ne_nil_aux (trim s).length (trim s) le_rfl h
    (fun _ hc => trim_head?_not_ws hc) (fun _ hc => trim_getLast?_not_ws hc)

/-! ## Data model (types.ts: `Course` with nested modules) -/

/-- A course module: `{ id, title, description, code? }`. -/
structure SubRecord where
  id : List Char
  title : List Char
  description : List Char
  code : Option (List Char)
deriving DecidableEq

/-- A course: `{ id, title, category, modules }`. -/
structure Course where
  id : List Char
  title : List Char
  category : List Char
  modules : List SubRecord
deriving DecidableEq

/-! ## The ranker (`filteredCourses`, src/App.tsx:573-612) -/

/-- The score contribution of one module for one query word
(src/App.tsx:588-600).  `mCode` is `(m.code || '').toLowerCase()`; the
fuzzy code bonus is guarded by `mCode` being non-empty (truthy). -/
def moduleWordScore (m : SubRecord) (w : List Char) : Nat :=
  let mTitle := lowerStr m.title
  let mDesc := lowerStr m.description
  let mCode := lowerStr (m.code.getD [])
  (if includesStr mTitle w then 30 else 0)
  + (if includesStr mDesc w then 10 else 0)
  + (if includesStr mCode w then 5 else 0)
  + (if !includesStr mTitle w && isFuzzyMatch mTitle w then 10 else 0)
  + (if !includesStr mDesc w && isFuzzyMatch mDesc w then 5 else 0)
  + (if !mCode.isEmpty && !includesStr mCode w && isFuzzyMatch mCode w then 2 else 0)

/-- The score contribution of one query word for a whole course
(src/App.tsx:584-603): title exact +100, category exact +50, the module
contributions, then title fuzzy-only +20. -/
def courseWordScore (c : Course) (w : List Char) : Nat :=
  let cTitle := lowerStr c.title
  let cCat := lowerStr c.category
  (if includesStr cTitle w then 100 else 0)
  + (if includesStr cCat w then 50 else 0)
  + (c.modules.map (fun m => moduleWordScore m w)).sum
  + (if !includesStr cTitle w && isFuzzyMatch cTitle w then 20 else 0)

/-- The total score of a course: the word contributions accumulated by the
`words.forEach` loop (src/App.tsx:584-603). -/
def scoreCourse (c : Course) (words : List (List Char)) : Nat :=
  words.foldl (fun acc w => acc + courseWordScore c w) 0

/-- Stable insertion into a descending-ordered list: the new element goes in
front of the first element whose score is not larger.  Folding this over the
input reproduces `Array.prototype.sort` with comparator
`(a, b) => b.score - a.score` (a stable descending sort, ES2019). -/
def insertDesc (x : Course × Nat) : List (Course × Nat) → List (Course × Nat)
  | [] => [x]
  | y :: ys => if x.2 < y.2 then y :: insertDesc x ys else x :: y :: ys

/-- Stable descending sort by score. -/
def sortDesc : List (Course × Nat) → List (Course × Nat)
  | [] => []
  | x :: xs => insertDesc x (sortDesc xs)

/-- `filteredCourses` (src/App.tsx:573-612) as a function of the course list
and the query: trim/lowercase the query, pass everything through if it is
empty, otherwise score every course per word, drop scores of 0, sort by
descending score (stable) and strip the scores. -/
def rank (records : List Course) (query : List Char) : List Course :=
  let trimmedQuery := trim (lowerStr query)
  if trimmedQuery = [] then records
  else
    let words := splitWs trimmedQuery
    let scored := records.map (fun c => (c, scoreCourse c words))
    (sortDesc (scored.filter (fun s => decide (0 < s.2)))).map Prod.fst

/-! ## Properties of the stable descending sort -/

theorem insertDesc_perm (x : Course × Nat) (l : List (Course × Nat)) :
    (insertDesc x l).Perm (x :: l) := by
  induction l with
  | nil => exact List.Perm.refl _
  | cons y ys ih =>
    by_cases h : x.2 < y.2
    · simp only [insertDesc, if_pos h]
      exact (ih.cons y).trans (List.Perm.swap x y ys)
    · simp only [insertDesc, if_neg h]
      exact List.Perm.refl _

theorem sortDesc_perm (l : List (Course × Nat)) : (sortDesc l).Perm l := by
  induction l with
  | nil => exact List.Perm.refl _
  | cons x xs ih => exact (insertDesc_perm x (sortDesc xs)).trans (ih.cons x)

theorem insertDesc_pairwise {x : Course × Nat} {l : List (Course × Nat)}
    (hl : l.Pairwise (fun a b => b.2 ≤ a.2)) :
    (insertDesc x l).Pairwise (fun a b => b.2 ≤ a.2) := by
  induction l with
  | nil => simp [insertDesc]
  | cons y ys ih =>
    rw [List.pairwise_cons] at hl
    by_cases h : x.2 < y.2
    · simp only [insertDesc, if_pos h]
      rw [List.pairwise_cons]
      refine ⟨?_, ih hl.2⟩
      intro z hz
      rcases List.mem_cons.mp ((insertDesc_perm x ys).mem_iff.mp hz) with rfl | hz'
      · omega
      · exact hl.1 z hz'
    · simp only [insertDesc, if_neg h]
      rw [List.pairwise_cons]
      refine ⟨?_, List.pairwise_cons.mpr hl⟩
      intro z hz
      rcases List.mem_cons.mp hz with rfl | hz'
      · omega
      · have := hl.1 z hz'
        omega

theorem sortDesc_pairwise (l : List (Course × Nat)) :
    (sortDesc l).Pairwise (fun a b => b.2 ≤ a.2) := by
  induction l with
  | nil => simp [sortDesc]
  | cons x xs ih => exact insertDesc_pairwise ih

/-- Stability, phrased through score classes: filtering a sorted list down to
the elements of one score value gives exactly the same-score elements of the
input in their original order. -/
theorem insertDesc_filter (x : Course × Nat) (l : List (Course × Nat)) (s : Nat) :
    (insertDesc x l).filter (fun y => y.2 == s) =
      if x.2 == s then x :: l.filter (fun y => y.2 == s)
      else l.filter (fun y => y.2 == s) := by
  induction l with
  | nil =>
    simp only [insertDesc]
    by_cases h : x.2 == s <;> simp [List.filter, h]
  | cons y ys ih =>
    by_cases h : x.2 < y.2
    · simp only [insertDesc, if_pos h]
      by_cases hy : y.2 == s
      · have hx : (x.2 == s) = false := by
          have hys : y.2 = s := by simpa using hy
          subst hys
          simp only [beq_eq_false_iff_ne, ne_eq]
          omega
        simp only [List.filter_cons, hy, if_pos, ih, hx]
        simp
      · simp only [List.filter_cons, hy]
        simpa [hy] using ih
    · simp only [insertDesc, if_neg h]
      by_cases hx : x.2 == s
      · simp [List.filter_cons, hx]
      · simp [List.filter_cons, hx]

theorem sortDesc_filter (l : List (Course × Nat)) (s : Nat) :
    (sortDesc l).filter (fun y => y.2 == s) = l.filter (fun y => y.2 == s) := by
  induction l with
  | nil => rfl
  | cons x xs ih =>
    rw [sortDesc, insertDesc_filter, List.filter_cons]
    by_cases hx : x.2 == s <;> simp [hx, ih]

/-- A list already sorted in descending order is left unchanged. -/
theorem sortDesc_eq_self {l : List (Course × Nat)}
    (hl : l.Pairwise (fun a b => b.2 ≤ a.2)) : sortDesc l = l := by
  induction l with
  | nil => rfl
  | cons x xs ih =>
    rw [List.pairwise_cons] at hl
    rw [sortDesc, ih hl.2]
    cases xs with
    | nil => rfl
    | cons y ys =>
      have : ¬ x.2 < y.2 := by
        have := hl.1 y (by simp)
        omega
      simp [insertDesc, this]

/-! ## The span highlighter (`Highlight`, src/App.tsx:322-335) -/

/-- One rendered segment: its text and whether it is highlighted. -/
structure Span where
  text : List Char
  matched : Bool
deriving DecidableEq

/-- `text.split(new RegExp('(' + escapedQuery + ')', 'gi'))`: because every
regular-expression metacharacter of the query is escaped, the scan looks for
the query as a literal substring, case-insensitively, left to right and
non-overlapping; with the capturing group, the resulting parts alternate
gap, occurrence, gap, occurrence, …, gap.  The empty-pattern case cannot be
reached (the caller returns early on queries with empty trim); it is given
the harmless value `[t]` to keep the function total. -/
def splitCapture (t q : List Char) : List (List Char) :=
  if hq : q = [] then [t]
  else
    match h : findOccAux (lowerStr q) (lowerStr t) with
    | none => [t]
    | some i =>
      t.take i :: ((t.drop i).take q.length) ::
        splitCapture ((t.drop i).drop q.length) q
termination_by t.length
decreasing_by
  have ht : t ≠ [] := by
    intro hnil
    subst hnil
    have : lowerStr q ≠ [] := by
      simpa [lowerStr] using hq
    rcases hl : lowerStr q with _ | ⟨c, cs⟩
    · exact absurd hl this
    · rw [hl] at h
      simp [findOccAux, lowerStr] at h
  have hq1 : 1 ≤ q.length := by
    cases q with
    | nil => exact absurd rfl hq
    | cons c cs => simp
  have ht1 : 1 ≤ t.length := by
    cases t with
    | nil => exact absurd rfl ht
    | cons c cs => simp
  simp only [List.length_drop]
  omega

/-- The `Highlight` component (src/App.tsx:322-335): on an empty trimmed
query the text is emitted as a single plain segment; otherwise the parts of
the literal case-insensitive split are emitted in order, a part being
highlighted exactly when it equals the query case-insensitively. -/
def highlight (text query : List Char) : List Span :=
  if trim query = [] then [⟨text, false⟩]
  else (splitCapture text query).map (fun p => ⟨p, lowerStr p == lowerStr query⟩)

/-- Concatenation of the segment texts. -/
def joinSpans : List Span → List Char
  | [] => []
  | s :: rest => s.text ++ joinSpans rest

theorem joinSpans_map_parts (parts : List (List Char)) (q : List Char) :
    joinSpans (parts.map (fun p => ⟨p, lowerStr p == lowerStr q⟩)) =
      parts.foldr (· ++ ·) [] := by
  induction parts with
  | nil => rfl
  | cons p rest ih => simp [joinSpans, ih]

theorem splitCapture_concat (t q : List Char) :
    (splitCapture t q).foldr (· ++ ·) [] = t := by
  by_cases hq : q = []
  · rw [splitCapture, dif_pos hq]
    simp
  · rw [splitCapture, dif_neg hq]
    cases h : findOccAux (lowerStr q) (lowerStr t) with
    | none => simp
    | some i =>
      have ih := splitCapture_concat ((t.drop i).drop q.length) q
      simp only [List.foldr_cons, ih]
      rw [List.take_append_drop, List.take_append_drop]
termination_by t.length
decreasing_by
  have ht : t ≠ [] := by
    intro hnil
    subst hnil
    have : lowerStr q ≠ [] := by
      simpa [lowerStr] using hq
    rcases hl : lowerStr q with _ | ⟨c, cs⟩
    · exact absurd hl this
    · rw [hl] at h
      simp [findOccAux, lowerStr] at h
  have hq1 : 1 ≤ q.length := by
    cases q with
    | nil => exact absurd rfl hq
    | cons c cs => simp
  have ht1 : 1 ≤ t.length := by
    cases t with
    | nil => exact absurd rfl ht
    | cons c cs => simp
  simp only [List.length_drop]
  omega

theorem lowerStr_length (s : List Char) : (lowerStr s).length = s.length := by
  simp [lowerStr]

theorem lowerStr_take (n : Nat) (s : List Char) :
    lowerStr (s.take n) = (lowerStr s).take n := by
  simp [lowerStr]

theorem lowerStr_drop (n : Nat) (s : List Char) :
    lowerStr (s.drop n) = (lowerStr s).drop n := by
  simp [lowerStr]

/-- Every part produced by the literal split either is the query up to case,
or contains no case-insensitive occurrence of the query at all. -/
theorem splitCapture_parts_aux :
    ∀ (n : Nat) (t q : List Char), t.length ≤ n → q ≠ [] →
      ∀ p ∈ splitCapture t q,
        lowerStr p = lowerStr q ∨ includesStr (lowerStr p) (lowerStr q) = false := by
  intro n
  induction n with
  | zero =>
    intro t q hlen hq p hp
    have ht : t = [] := by
      cases t with
      | nil => rfl
      | cons c cs => simp at hlen
    subst ht
    rw [splitCapture, dif_neg hq] at hp
    have hfind : findOccAux (lowerStr q) (lowerStr ([] : List Char)) = none := by
      cases q with
      | nil => exact absurd rfl hq
      | cons c cs => simp [lowerStr, findOccAux]
    rw [hfind] at hp
    simp only [List.mem_singleton] at hp
    subst hp
    right
    simp [includesStr, hfind]
  | succ n ih =>
    intro t q hlen hq p hp
    rw [splitCapture, dif_neg hq] at hp
    cases h : findOccAux (lowerStr q) (lowerStr t) with
    | none =>
      rw [h] at hp
      simp only [List.mem_singleton] at hp
      subst hp
      right
      simp [includesStr, h]
    | some i =>
      rw [h] at hp
      obtain ⟨hocc, hmin⟩ := findOccAux_some h
      simp only [List.mem_cons] at hp
      rcases hp with rfl | rfl | hp
      · -- the gap before the first occurrence contains no occurrence
        right
        rw [lowerStr_take]
        cases hinc : includesStr ((lowerStr t).take i) (lowerStr q) with
        | false => rfl
        | true =>
          exfalso
          obtain ⟨j, hj⟩ := (includesStr_iff _ _).mp hinc
          have hji : j < i := by
            by_contra hge
            have : ((lowerStr t).take i).drop j = [] := by
              rw [List.drop_eq_nil_iff]
              have := List.length_take_le i (lowerStr t)
              omega
            rw [this] at hj
            have : lowerStr q = [] := List.prefix_nil.mp hj
            exact hq (by simpa [lowerStr] using this)
          have hdp : ((lowerStr t).take i).drop j <+: (lowerStr t).drop j :=
            (List.take_prefix i (lowerStr t)).drop j
          exact hmin j hji (hj.trans hdp)
      · -- the occurrence itself equals the query up to case
        left
        obtain ⟨r, hr⟩ := hocc
        rw [lowerStr_take, lowerStr_drop, ← hr]
        exact List.take_left' (lowerStr_length q)
      · -- parts of the remaining text: induction
        have ht : t ≠ [] := by
          intro hnil
          subst hnil
          cases hl : lowerStr q with
          | nil => exact hq (by simpa [lowerStr] using hl)
          | cons c cs =>
            rw [hl] at h
            simp [findOccAux, lowerStr] at h
        have hq1 : 1 ≤ q.length := by
          cases q with
          | nil => exact absurd rfl hq
          | cons c cs => simp
        have ht1 : 1 ≤ t.length := by
          cases t with
          | nil => exact absurd rfl ht
          | cons c cs => simp
        refine ih ((t.drop i).drop q.length) q ?_ hq p hp
        simp only [List.length_drop]
        omega

theorem splitCapture_parts {t q : List Char} (hq : q ≠ []) :
    ∀ p ∈ splitCapture t q,
      lowerStr p = lowerStr q ∨ includesStr (lowerStr p) (lowerStr q) = false :=
  splitCapture_parts_aux t.length t q le_rfl hq

theorem toNat_ofNat_of_valid {n : Nat} (h : n.isValidChar) :
    (Char.ofNat n).toNat = n := by
  unfold Char.ofNat
  rw [dif_pos h]
  rfl

theorem toLower_idem (c : Char) : c.toLower.toLower = c.toLower := by
  unfold Char.toLower
  by_cases h : c.toNat ≥ 65 ∧ c.toNat ≤ 90
  · rw [if_pos h]
    have hval : (c.toNat + 32).isValidChar := by
      left
      omega
    have hn : (Char.ofNat (c.toNat + 32)).toNat = c.toNat + 32 :=
      toNat_ofNat_of_valid hval
    rw [hn, if_neg (by omega)]
  · rw [if_neg h, if_neg h]

theorem lowerStr_idem (s : List Char) : lowerStr (lowerStr s) = lowerStr s := by
  simp only [lowerStr, List.map_map]
  exact List.map_congr_left (fun c _ => toLower_idem c)

/-! ## The keyboard-movement demo (`LogicGame`, src/App.tsx:61-115) -/

/-- The four WASD movement directions. -/
inductive Dir
  | w
  | a
  | s
  | d
deriving DecidableEq

/-- The demo state: the dot position and the paused flag
(`useState({ x: 50, y: 50 })`, `useState(false)`). -/
structure GameState where
  x : Int
  y : Int
  paused : Bool
deriving DecidableEq

/-- `move` (src/App.tsx:66-76): return unchanged while paused, otherwise
step 5 units in the given direction, clamped with `Math.max(0, ·)` /
`Math.min(100, ·)`. -/
def move (dir : Dir) (st : GameState) : GameState :=
  if st.paused then st
  else
    match dir with
    | .w => { st with y := max 0 (st.y - 5) }
    | .s => { st with y := min 100 (st.y + 5) }
    | .a => { st with x := max 0 (st.x - 5) }
    | .d => { st with x := min 100 (st.x + 5) }

/-- The Reset button: `setPos({ x: 50, y: 50 })`. -/
def reset (st : GameState) : GameState := { st with x := 50, y := 50 }

/-- The Pause/Resume button and the space key: `setPaused(p => !p)`. -/
def togglePause (st : GameState) : GameState := { st with paused := !st.paused }

/-- The user-visible operations of the demo. -/
inductive GameOp
  | move (dir : Dir)
  | reset
  | togglePause

/-- Apply one operation. -/
def applyOp : GameOp → GameState → GameState
  | .move dir, st => move dir st
  | .reset, st => reset st
  | .togglePause, st => togglePause st

/-- Run a sequence of operations from a state. -/
def runOps (ops : List GameOp) (st : GameState) : GameState :=
  ops.foldl (fun acc op => applyOp op acc) st

/-- The demo's initial state. -/
def initState : GameState := { x := 50, y := 50, paused := false }

/-- Both coordinates lie in the closed interval `[0, 100]`. -/
def InBounds (st : GameState) : Prop :=
  0 ≤ st.x ∧ st.x ≤ 100 ∧ 0 ≤ st.y ∧ st.y ≤ 100

theorem applyOp_inBounds {st : GameState} (h : InBounds st) (op : GameOp) :
    InBounds (applyOp op st) := by
  obtain ⟨h1, h2, h3, h4⟩ := h
  cases op with
  | move dir =>
    by_cases hp : st.paused
    · simpa [applyOp, move, hp] using ⟨h1, h2, h3, h4⟩
    · cases dir <;>
        simp only [applyOp, move, if_neg hp] <;>
        refine ⟨?_, ?_, ?_, ?_⟩ <;> simp <;> omega
  | reset =>
    refine ⟨?_, ?_, ?_, ?_⟩ <;> simp [applyOp, reset]
  | togglePause =>
    exact ⟨h1, h2, h3, h4⟩

theorem runOps_inBounds {st : GameState} (h : InBounds st) (ops : List GameOp) :
    InBounds (runOps ops st) := by
  induction ops generalizing st with
  | nil => exact h
  | cons op rest ih => exact ih (applyOp_inBounds h op)

/-! ## Unfolding lemmas for the recursive splitters -/

theorem splitWs_step_nil {s : List Char} (h : s.dropWhile (fun c => !isWs c) = []) :
    splitWs s = [s.takeWhile (fun c => !isWs c)] := by
  rw [splitWs]
  split
  · rfl
  · rename_i b rs heq
    rw [h] at heq
    cases heq

theorem splitWs_step_cons (s : List Char) (b : Char) (rs : List Char)
    (h : s.dropWhile (fun c => !isWs c) = b :: rs) :
    splitWs s = s.takeWhile (fun c => !isWs c) :: splitWs (rs.dropWhile isWs) := by
  rw [splitWs]
  split
  · rename_i heq
    rw [h] at heq
    cases heq
  · rename_i b' rs' heq
    rw [h] at heq
    injection heq with h1 h2
    subst h1
    subst h2
    rfl

theorem splitCapture_step_none (t q : List Char) (hq : q ≠ [])
    (h : findOccAux (lowerStr q) (lowerStr t) = none) :
    splitCapture t q = [t] := by
  rw [splitCapture, dif_neg hq]
  split
  · rfl
  · rename_i i heq
    rw [h] at heq
    cases heq

theorem splitCapture_step_some (t q : List Char) (i : Nat) (hq : q ≠ [])
    (h : findOccAux (lowerStr q) (lowerStr t) = some i) :
    splitCapture t q =
      t.take i :: ((t.drop i).take q.length) ::
        splitCapture ((t.drop i).drop q.length) q := by
  rw [splitCapture, dif_neg hq]
  split
  · rename_i heq
    rw [h] at heq
    cases heq
  · rename_i i' heq
    rw [h] at heq
    injection heq with h1
    subst h1
    rfl

/-! ## The scoring formula as the specification words it (§4.2) -/

/-- The per-word contribution of one module, following the specification's
wording: sub-title exact +30, sub-description exact +10, code-body exact +5
(only if code is present); sub-title fuzzy-only +10, sub-description
fuzzy-only +5, code-body fuzzy-only +2 (only if code is present). -/
def specModuleWordScore (m : SubRecord) (w : List Char) : Nat :=
  (if includesStr (lowerStr m.title) w then 30 else 0)
  + (if includesStr (lowerStr m.description) w then 10 else 0)
  + (match m.code with
     | some body => if includesStr (lowerStr body) w then 5 else 0
     | none => 0)
  + (if !includesStr (lowerStr m.title) w && isFuzzyMatch m.title w then 10 else 0)
  + (if !includesStr (lowerStr m.description) w && isFuzzyMatch m.description w then 5 else 0)
  + (match m.code with
     | some body => if !includesStr (lowerStr body) w && isFuzzyMatch body w then 2 else 0
     | none => 0)

/-- The per-word contribution of a whole record, following the
specification's wording: title exact +100, title fuzzy-only +20,
category exact +50, plus the module contributions accumulated over all
sub-records. -/
def specWordScore (c : Course) (w : List Char) : Nat :=
  (if includesStr (lowerStr c.title) w then 100 else 0)
  + (if !includesStr (lowerStr c.title) w && isFuzzyMatch c.title w then 20 else 0)
  + (if includesStr (lowerStr c.category) w then 50 else 0)
  + (c.modules.map (fun m => specModuleWordScore m w)).sum

theorem isFuzzyMatch_lowerStr (x w : List Char) :
    isFuzzyMatch (lowerStr x) w = isFuzzyMatch x w := by
  unfold isFuzzyMatch
  rw [lowerStr_idem]

theorem includesStr_nil {w : List Char} (hw : w ≠ []) :
    includesStr [] w = false := by
  cases w with
  | nil => exact absurd rfl hw
  | cons c cs => simp [includesStr, findOccAux]

theorem isFuzzyMatch_nil {w : List Char} (hw : w ≠ []) :
    isFuzzyMatch [] w = false := by
  cases w with
  | nil => exact absurd rfl hw
  | cons c cs => simp [isFuzzyMatch, lowerStr, fuzzyLoop]

theorem lowerStr_eq_nil_iff {s : List Char} : lowerStr s = [] ↔ s = [] := by
  simp [lowerStr]

theorem lowerStr_nil : lowerStr [] = [] := rfl

theorem moduleWordScore_eq_spec (m : SubRecord) {w : List Char} (hw : w ≠ []) :
    moduleWordScore m w = specModuleWordScore m w := by
  unfold moduleWordScore specModuleWordScore
  cases hm : m.code with
  | none =>
    simp only [hm, Option.getD_none, lowerStr_nil, includesStr_nil hw,
      isFuzzyMatch_nil hw, isFuzzyMatch_lowerStr]
    simp
  | some body =>
    simp only [hm, Option.getD_some, isFuzzyMatch_lowerStr]
    by_cases hb : body = []
    · subst hb
      simp only [lowerStr_nil, includesStr_nil hw, isFuzzyMatch_nil hw]
      simp
    · have hbe : (lowerStr body).isEmpty = false := by
        simp [List.isEmpty_iff, lowerStr_eq_nil_iff, hb]
      simp only [hbe]
      simp

theorem courseWordScore_eq_spec (c : Course) {w : List Char} (hw : w ≠ []) :
    courseWordScore c w = specWordScore c w := by
  unfold courseWordScore specWordScore
  simp only [isFuzzyMatch_lowerStr]
  have hmods : (c.modules.map (fun m => moduleWordScore m w)).sum =
      (c.modules.map (fun m => specModuleWordScore m w)).sum := by
    congr 1
    exact List.map_congr_left (fun m _ => moduleWordScore_eq_spec m hw)
  rw [hmods]
  omega

theorem foldl_add_eq_sum (f : List Char → Nat) (ws : List (List Char)) (n : Nat) :
    ws.foldl (fun acc w => acc + f w) n = n + (ws.map f).sum := by
  induction ws generalizing n with
  | nil => simp
  | cons w rest ih =>
    simp only [List.foldl_cons, List.map_cons, List.sum_cons, ih]
    omega

theorem scoreCourse_eq_spec_sum (c : Course) {words : List (List Char)}
    (hws : ∀ w ∈ words, w ≠ []) :
    scoreCourse c words = (words.map (specWordScore c)).sum := by
  unfold scoreCourse
  rw [foldl_add_eq_sum]
  simp only [Nat.zero_add]
  congr 1
  exact List.map_congr_left (fun w hw => courseWordScore_eq_spec c (hws w hw))

/-! ## Concrete inputs used by the examples and witnesses -/

/-- The record of the worked example: title "Go Concurrency", one module
titled "Channels", no description, no code; the category is a tag that
matches neither query word. -/
def goCourse : Course :=
  { id := ['c', '1'],
    title := ['G', 'o', ' ', 'C', 'o', 'n', 'c', 'u', 'r', 'r', 'e', 'n', 'c', 'y'],
    category := ['X'],
    modules := [{ id := ['m', '1'],
                  title := ['C', 'h', 'a', 'n', 'n', 'e', 'l', 's'],
                  description := [],
                  code := none }] }

/-- The two-word query "go channels". -/
def goChannelsQuery : List Char := ['g', 'o', ' ', 'c', 'h', 'a', 'n', 'n', 'e', 'l', 's']

/-- The text "a.b and axb" of the regex-literalness example. -/
def exText : List Char := ['a', '.', 'b', ' ', 'a', 'n', 'd', ' ', 'a', 'x', 'b']

/-- The query "a.b" of the regex-literalness example. -/
def exQuery : List Char := ['a', '.', 'b']

/-- The ranker's scored intermediate list (the `scored` array of
src/App.tsx:579-606). -/
def scoredList (records : List Course) (query : List Char) : List (Course × Nat) :=
  records.map (fun c => (c, scoreCourse c (splitWs (trim (lowerStr query)))))

/-- The ranker's filtered and sorted intermediate list
(src/App.tsx:608-610). -/
def rankScored (records : List Course) (query : List Char) : List (Course × Nat) :=
  sortDesc ((scoredList records query).filter (fun s => decide (0 < s.2)))

/-! ## The claims -/

/-- Claim C3: for every pair of finite strings, `isFuzzyMatch` returns true
if and only if the lowercased query word is an ordered (possibly
non-contiguous) subsequence of the lowercased text, as computed by the
left-to-right two-pointer scan; the function is total, and on empty text it
returns true exactly when the query word is also empty. -/
theorem claim3_fuzzy_iff_subsequence (text queryWord : List Char) :
    (isFuzzyMatch text queryWord = true ↔
      (lowerStr queryWord).Sublist (lowerStr text)) ∧
    (isFuzzyMatch [] queryWord = true ↔ queryWord = []) := by
  constructor
  · exact fuzzyLoop_iff_sublist _ _
  · constructor
    · intro h
      cases queryWord with
      | nil => rfl
      | cons c cs => simp [isFuzzyMatch, lowerStr, fuzzyLoop] at h
    · intro h
      subst h
      rfl

/-- Claim C9: exact (contiguous, case-insensitive) containment implies a
fuzzy match, and the fuzzy matcher accepts the empty query on every text. -/
theorem claim9_exact_implies_fuzzy :
    (∀ text query : List Char,
        includesStr (lowerStr text) (lowerStr query) = true →
        isFuzzyMatch text query = true) ∧
    ∀ text : List Char, isFuzzyMatch text [] = true := by
  constructor
  · intro t q h
    exact fuzzyLoop_of_sublist (sublist_of_includesStr h)
  · intro t
    exact fuzzyLoop_nil_right _

/-- Claim C4: a query with empty trimmed form (empty or whitespace-only)
passes every record list through unchanged, and the empty record list maps
to the empty result for every query. -/
theorem claim4_passthrough_and_empty :
    (∀ (records : List Course) (query : List Char),
        trim (lowerStr query) = [] → rank records query = records) ∧
    ∀ query : List Char, rank [] query = [] := by
  constructor
  · intro records query h
    simp only [rank]
    rw [if_pos h]
  · intro query
    simp only [rank]
    by_cases h : trim (lowerStr query) = []
    · rw [if_pos h]
    · rw [if_neg h]
      rfl

/-- Claim C10: in the keyboard-movement demo, every sequence of move, reset
and pause operations keeps both coordinates within `[0, 100]` when started
from `(50, 50)`, and a move issued while paused leaves the position
unchanged. -/
theorem claim10_game_bounds :
    (∀ ops : List GameOp, InBounds (runOps ops initState)) ∧
    ∀ (st : GameState) (dir : Dir), st.paused = true →
      (move dir st).x = st.x ∧ (move dir st).y = st.y := by
  constructor
  · intro ops
    refine runOps_inBounds ?_ ops
    refine ⟨?_, ?_, ?_, ?_⟩ <;> simp [initState]
  · intro st dir hp
    simp [move, hp]

/-- Claim C5: the highlighter's spans always concatenate back to the input
text, and a query with empty trimmed form produces exactly one unmatched
span covering the whole text. -/
theorem claim5_highlight_roundtrip (text query : List Char) :
    joinSpans (highlight text query) = text ∧
    (trim query = [] → highlight text query = [⟨text, false⟩]) := by
  constructor
  · unfold highlight
    by_cases h : trim query = []
    · rw [if_pos h]
      simp [joinSpans]
    · rw [if_neg h]
      rw [joinSpans_map_parts]
      exact splitCapture_concat text query
  · intro h
    unfold highlight
    rw [if_pos h]

/-- Claim C1: for a query with non-empty trimmed form, the ranker splits the
trimmed, lowercased query on whitespace runs into non-empty words, and every
record's total score is the sum over those words of the specified per-field
weights (title exact +100 / fuzzy-only +20, category exact +50, and per
sub-record: title exact +30, description exact +10, code exact +5, title
fuzzy-only +10, description fuzzy-only +5, code fuzzy-only +2, the code
bonuses only when code is present). -/
theorem claim1_ranker_scoring (records : List Course) (query : List Char)
    (h : trim (lowerStr query) ≠ []) :
    (∀ w ∈ splitWs (trim (lowerStr query)), w ≠ []) ∧
    ∀ c ∈ records, scoreCourse c (splitWs (trim (lowerStr query))) =
      ((splitWs (trim (lowerStr query))).map (specWordScore c)).sum :=
  ⟨splitWs_trim_ne_nil h,
   fun c _ => scoreCourse_eq_spec_sum c (splitWs_trim_ne_nil h)⟩

/-- Witness for C1 at the record "Go Concurrency" and the query
"go channels". -/
theorem claim1_ranker_scoring_witness :
    (∀ w ∈ splitWs (trim (lowerStr goChannelsQuery)), w ≠ []) ∧
    ∀ c ∈ [goCourse], scoreCourse c (splitWs (trim (lowerStr goChannelsQuery))) =
      ((splitWs (trim (lowerStr goChannelsQuery))).map (specWordScore c)).sum :=
  claim1_ranker_scoring [goCourse] goChannelsQuery (by decide)

/-- Claim C2: for a query with non-empty trimmed form, the ranker returns
exactly the records of strictly positive score (each survivor's score is at
least 1), in descending score order, and records of equal score keep their
input order: filtering the output down to any one score value reproduces the
same-score records of the scored input list in their original order. -/
theorem claim2_filter_sort_stable (records : List Course) (query : List Char)
    (h : trim (lowerStr query) ≠ []) :
    rank records query = (rankScored records query).map Prod.fst ∧
    (rankScored records query).Pairwise (fun a b => b.2 ≤ a.2) ∧
    (∀ x ∈ rankScored records query, 1 ≤ x.2) ∧
    (rankScored records query).Perm
      ((scoredList records query).filter (fun s => decide (0 < s.2))) ∧
    ∀ sc : Nat, (rankScored records query).filter (fun y => y.2 == sc) =
      ((scoredList records query).filter (fun s => decide (0 < s.2))).filter
        (fun y => y.2 == sc) := by
  refine ⟨?_, sortDesc_pairwise _, ?_, sortDesc_perm _, fun sc => sortDesc_filter _ sc⟩
  · simp only [rank, rankScored, scoredList]
    rw [if_neg h]
  · intro x hx
    have hx' : x ∈ (scoredList records query).filter (fun s => decide (0 < s.2)) :=
      (sortDesc_perm _).mem_iff.mp hx
    have := List.of_mem_filter hx'
    simp only [decide_eq_true_eq] at this
    omega

/-- Witness for C2 at the record "Go Concurrency" and the query
"go channels". -/
theorem claim2_filter_sort_stable_witness :
    rank [goCourse] goChannelsQuery = (rankScored [goCourse] goChannelsQuery).map Prod.fst ∧
    (rankScored [goCourse] goChannelsQuery).Pairwise (fun a b => b.2 ≤ a.2) ∧
    (∀ x ∈ rankScored [goCourse] goChannelsQuery, 1 ≤ x.2) ∧
    (rankScored [goCourse] goChannelsQuery).Perm
      ((scoredList [goCourse] goChannelsQuery).filter (fun s => decide (0 < s.2))) ∧
    ∀ sc : Nat, (rankScored [goCourse] goChannelsQuery).filter (fun y => y.2 == sc) =
      ((scoredList [goCourse] goChannelsQuery).filter (fun s => decide (0 < s.2))).filter
        (fun y => y.2 == sc) :=
  claim2_filter_sort_stable [goCourse] goChannelsQuery (by decide)

/-- Claim C7: re-ranking the ranker's own output with the same query
reproduces it: the surviving records all keep strictly positive scores, and a
stable sort of an already-sorted list is the identity. -/
theorem claim7_rank_idempotent (records : List Course) (query : List Char) :
    rank (rank records query) query = rank records query := by
  by_cases h : trim (lowerStr query) = []
  · simp only [rank]
    rw [if_pos h, if_pos h]
  · have hrank : ∀ rs : List Course, rank rs query =
        (sortDesc ((rs.map (fun c =>
          (c, scoreCourse c (splitWs (trim (lowerStr query)))))).filter
            (fun s => decide (0 < s.2)))).map Prod.fst := by
      intro rs
      simp only [rank]
      rw [if_neg h]
    rw [hrank (rank records query), hrank records]
    set words := splitWs (trim (lowerStr query)) with hw
    set f := fun c : Course => (c, scoreCourse c words) with hf
    set p := fun s : Course × Nat => decide (0 < s.2) with hp
    set out := sortDesc ((records.map f).filter p) with ho
    have hA : (out.map Prod.fst).map f = out := by
      rw [List.map_map]
      have hfix : ∀ x ∈ out, (f ∘ Prod.fst) x = x := by
        intro x hx
        have hx1 : x ∈ (records.map f).filter p := (sortDesc_perm _).mem_iff.mp hx
        have hx2 : x ∈ records.map f := List.mem_of_mem_filter hx1
        obtain ⟨c, hc, rfl⟩ := List.mem_map.mp hx2
        rfl
      calc out.map (f ∘ Prod.fst) = out.map id := List.map_congr_left hfix
        _ = out := List.map_id out
    rw [hA]
    have hB : out.filter p = out := by
      rw [List.filter_eq_self]
      intro x hx
      exact List.of_mem_filter ((sortDesc_perm _).mem_iff.mp hx)
    rw [hB]
    rw [sortDesc_eq_self (sortDesc_pairwise _)]

/-- Claim C8: the two-word query "go channels" against the record titled
"Go Concurrency" whose single sub-record is titled "Channels" scores exactly
130: +100 from the title exact match of "go", +30 from the sub-title exact
match of "channels", and nothing else. -/
theorem claim8_example_score_130 :
    scoreCourse goCourse (splitWs (trim (lowerStr goChannelsQuery))) = 130 ∧
    courseWordScore goCourse ['g', 'o'] = 100 ∧
    courseWordScore goCourse ['c', 'h', 'a', 'n', 'n', 'e', 'l', 's'] = 30 := by
  have hsplit : splitWs (trim (lowerStr goChannelsQuery)) =
      [['g', 'o'], ['c', 'h', 'a', 'n', 'n', 'e', 'l', 's']] := by
    have h1 : trim (lowerStr goChannelsQuery) = goChannelsQuery := by decide
    rw [h1]
    rw [splitWs_step_cons goChannelsQuery ' '
      ['c', 'h', 'a', 'n', 'n', 'e', 'l', 's'] (by decide)]
    rw [show (['c', 'h', 'a', 'n', 'n', 'e', 'l', 's'] : List Char).dropWhile isWs =
      ['c', 'h', 'a', 'n', 'n', 'e', 'l', 's'] from by decide]
    rw [splitWs_step_nil (by decide)]
    decide
  refine ⟨?_, by decide, by decide⟩
  rw [hsplit]
  decide

/-- Claim C6: for a query with non-empty trimmed form, every highlighted
span equals the query up to case and every non-highlighted span contains no
case-insensitive occurrence of the query (so exactly the non-overlapping
left-to-right literal occurrences are marked); concretely, the query "a.b"
against "a.b and axb" marks only the literal "a.b", never treating the dot
as a wildcard. -/
theorem claim6_highlight_literal :
    (∀ (text query : List Char), trim query ≠ [] →
        ∀ sp ∈ highlight text query,
          (sp.matched = true → lowerStr sp.text = lowerStr query) ∧
          (sp.matched = false →
            includesStr (lowerStr sp.text) (lowerStr query) = false)) ∧
    highlight exText exQuery =
      [⟨[], false⟩, ⟨['a', '.', 'b'], true⟩,
       ⟨[' ', 'a', 'n', 'd', ' ', 'a', 'x', 'b'], false⟩] := by
  constructor
  · intro text query h sp hsp
    have hq : query ≠ [] := by
      intro he
      subst he
      exact h rfl
    unfold highlight at hsp
    rw [if_neg h] at hsp
    obtain ⟨p, hp, rfl⟩ := List.mem_map.mp hsp
    rcases splitCapture_parts hq p hp with heq | hninc
    · refine ⟨fun _ => heq, fun hfalse => ?_⟩
      exfalso
      simp only [heq] at hfalse
      simp at hfalse
    · refine ⟨fun htrue => ?_, fun _ => hninc⟩
      have : (lowerStr p == lowerStr query) = true := htrue
      exact eq_of_beq this
  · have h1 : splitCapture exText exQuery =
        [[], ['a', '.', 'b'], [' ', 'a', 'n', 'd', ' ', 'a', 'x', 'b']] := by
      rw [splitCapture_step_some exText exQuery 0 (by decide) (by decide)]
      rw [show ((exText.drop 0).drop exQuery.length) =
        [' ', 'a', 'n', 'd', ' ', 'a', 'x', 'b'] from by decide]
      rw [splitCapture_step_none [' ', 'a', 'n', 'd', ' ', 'a', 'x', 'b'] exQuery
        (by decide) (by decide)]
      decide
    unfold highlight
    rw [if_neg (show ¬ trim exQuery = [] from by decide), h1]
    decide

end DevHub
